import Mathlib

/-!
Shallow embedding of the nftables table-lifecycle manager of
daemon/firewall/nftables/tables.go: table creation (AddTable), the
process-wide table registry (sysTables), foreign-rule counting
(nonSystemRules) and teardown (delSystemTables).

Kernel state and the outcomes of kernel round-trips (Commit, ListChains,
GetRule) are modelled explicitly: the connection carries the committed
table set, the result of listing chains, and each chain carries the result
of listing its rules; commit outcomes are supplied as oracle parameters.
-/

set_option autoImplicit false

/-- An nftables table handle (nftables.Table): an address-family code and a
name. In the Go code handles are pointers to this struct; here they are
compared by value. -/
structure NftTable where
  family : Nat
  name : String
deriving DecidableEq

/-- A kernel rule as seen by enumeration. The daemonOwned flag records the
environment fact "this rule originates from this daemon's own rule records";
the source code of nonSystemRules never inspects it (it is used only by the
spec-side definition countForeignRulesSpec, for comparison). -/
structure NftRule where
  daemonOwned : Bool
deriving DecidableEq

/-- An nftables chain (nftables.Chain): it belongs to a table, and
rulesResult is the outcome the kernel would give to GetRule on this chain
(none models an enumeration error). -/
structure NftChain where
  table : NftTable
  rulesResult : Option (List NftRule)
deriving DecidableEq

/-- The kernel-side state behind the netlink connection n.conn:
chainsResult is the outcome of conn.ListChains() (none models an error),
tables the set of committed tables. -/
structure Conn where
  chainsResult : Option (List NftChain)
  tables : List NftTable
deriving DecidableEq

/-- The error value built by AddTable's fmt.Errorf (its data: table name,
family string and family code). -/
structure AddTableError where
  name : String
  family : String
  famCode : Nat
deriving DecidableEq

/-- The Nft handler state: the connection, the sysTables registry
(a mapping from key string to table; the concrete registry type is not
under src/ and is modelled as an association list with overwrite-on-add),
and the emitted warning log. -/
structure Nft where
  conn : Conn
  sysTables : List (String × NftTable)
  logs : List String
deriving DecidableEq

/-- Modelled from the spec: getFamilyCode (not under src/) maps the family
name to the kernel family code; every claim is insensitive to the concrete
codes, only to getFamilyCode being a function. -/
def getFamilyCode (family : String) : Nat :=
  if family = "ip" then 2 else if family = "ip6" then 10 else 1

/-- Modelled from the spec: sysTables.Add (registry type not under src/)
binds key to tbl, overwriting any previous binding of key. -/
def sysTablesAdd (m : List (String × NftTable)) (key : String) (tbl : NftTable) :
    List (String × NftTable) :=
  (key, tbl) :: m.filter (fun e => e.1 != key)

/-- Modelled from the spec: sysTables.Get (registry type not under src/)
looks the key up in the registry. -/
def sysTablesGet (m : List (String × NftTable)) (key : String) : Option NftTable :=
  (m.find? (fun e => e.1 == key)).map (fun e => e.2)

/-- Modelled from the spec: sysTables.Del (registry type not under src/)
removes the binding of the key. -/
def sysTablesDel (m : List (String × NftTable)) (key : String) :
    List (String × NftTable) :=
  m.filter (fun e => e.1 != key)

/-- Kernel semantics of a committed conn.AddTable: per the spec, adding a
table that already exists with the same name/family is not an error and
creates no duplicate kernel object. -/
def connAddTable (conn : Conn) (tbl : NftTable) : Conn :=
  if tbl ∈ conn.tables then conn else ⟨conn.chainsResult, conn.tables ++ [tbl]⟩

/-- getTableKey: fmt.Sprint(name, "-", family) on strings concatenates
without separators. -/
def getTableKey (name family : String) : String :=
  name ++ "-" ++ family

/-- AddTable: builds the table from name and family code, stages it on the
connection and commits; on commit failure (commitOk = false, and per the
commit contract nothing of the staged batch is applied) it returns a nil
handle and an error and leaves the state unchanged; on success it registers
the handle in sysTables under getTableKey and returns it. -/
def AddTable (n : Nft) (name family : String) (commitOk : Bool) :
    Option NftTable × Option AddTableError × Nft :=
  let famCode := getFamilyCode family
  let tbl : NftTable := ⟨famCode, name⟩
  if commitOk then
    (some tbl, none,
      ⟨connAddTable n.conn tbl,
       sysTablesAdd n.sysTables (getTableKey name family) tbl,
       n.logs⟩)
  else
    (none, some ⟨name, family, famCode⟩, n)

/-- getTable: registry lookup by the key of (name, family). -/
def getTable (n : Nft) (name family : String) : Option NftTable :=
  sysTablesGet n.sysTables (getTableKey name family)

/-- Modelled from the spec: exprs.NFT_CHAIN_MANGLE (not under src/), the
conventional mangle table name. -/
def NFT_CHAIN_MANGLE : String := "mangle"

/-- Modelled from the spec: exprs.NFT_CHAIN_FILTER (not under src/), the
conventional filter table name. -/
def NFT_CHAIN_FILTER : String := "filter"

/-- Modelled from the spec: exprs.NFT_FAMILY_INET (not under src/), the
inet address family (IPv4 and IPv6). -/
def NFT_FAMILY_INET : String := "inet"

/-- addInterceptionTables: adds the mangle table and then the filter table,
both in the inet family; if either AddTable returns an error it returns
that error immediately. The two oracle booleans are the outcomes of the
two commits. -/
def addInterceptionTables (n : Nft) (ok1 ok2 : Bool) : Option AddTableError × Nft :=
  match AddTable n NFT_CHAIN_MANGLE NFT_FAMILY_INET ok1 with
  | (_, some e, n1) => (some e, n1)
  | (_, none, n1) =>
    match AddTable n1 NFT_CHAIN_FILTER NFT_FAMILY_INET ok2 with
    | (_, some e2, n2) => (some e2, n2)
    | (_, none, n2) => (none, n2)

/-- addSystemTables: adds the mangle and filter tables in the inet family,
discarding the errors. -/
def addSystemTables (n : Nft) (ok1 ok2 : Bool) : Nft :=
  ((AddTable ((AddTable n NFT_CHAIN_MANGLE NFT_FAMILY_INET ok1).2.2)
      NFT_CHAIN_FILTER NFT_FAMILY_INET ok2).2.2)

/-- The loop body of nonSystemRules over the listed chains, with the running
total t: a chain is skipped when BOTH its table name and its table family
differ from the target's; otherwise its rules are listed (-1 on error) and
their number added. -/
def nonSystemRulesGo (tbl : NftTable) (t : Nat) : List NftChain → Int
  | [] => (t : Int)
  | c :: cs =>
    if tbl.name ≠ c.table.name ∧ tbl.family ≠ c.table.family then
      nonSystemRulesGo tbl t cs
    else
      match c.rulesResult with
      | none => -1
      | some rs => nonSystemRulesGo tbl (t + rs.length) cs

/-- nonSystemRules: lists the chains (-1 on error) and totals the rules of
the chains not skipped by the AND condition. -/
def nonSystemRules (n : Nft) (tbl : NftTable) : Int :=
  match n.conn.chainsResult with
  | none => -1
  | some chains => nonSystemRulesGo tbl 0 chains

/-- Kernel semantics of a committed conn.DelTable: the table is removed
together with its chains. -/
def delTableConn (conn : Conn) (tbl : NftTable) : Conn :=
  ⟨conn.chainsResult.map (fun cs => cs.filter (fun c => c.table != tbl)),
   conn.tables.filter (fun t => t != tbl)⟩

/-- Modelled from the spec: the log.Warning message of delSystemTables'
commit-failure branch, with the key formatted in. -/
def warnDelMsg (k : String) : String :=
  "error deleting system table: " ++ k

/-- The iteration of delSystemTables over the snapshot of registry entries,
threading the handler state: an entry whose table has a nonzero
foreign-rule count is skipped; otherwise the delete is staged and
committed — on commit failure a warning is logged and the entry retained
(per the commit contract nothing of the staged batch is applied), on
success the entry is removed from the registry. -/
def teardownLoop (commitOk : String → Bool) :
    List (String × NftTable) → Nft → Nft
  | [], st => st
  | (k, tbl) :: rest, st =>
    if nonSystemRules st tbl ≠ 0 then
      teardownLoop commitOk rest st
    else
      if commitOk k then
        teardownLoop commitOk rest
          ⟨delTableConn st.conn tbl, sysTablesDel st.sysTables k, st.logs⟩
      else
        teardownLoop commitOk rest
          ⟨st.conn, st.sysTables, st.logs ++ [warnDelMsg k]⟩

/-- delSystemTables: iterates the registry entries, deleting each table
whose foreign-rule count is zero (per-key commit outcomes given by the
oracle). -/
def delSystemTables (commitOk : String → Bool) (n : Nft) : Nft :=
  teardownLoop commitOk n.sysTables n

/-- The loop of countForeignRulesSpec: over chains of exactly the target's
(name, family) pair, totalling the rules not owned by the daemon. -/
def countForeignRulesSpecGo (tbl : NftTable) (t : Nat) : List NftChain → Int
  | [] => (t : Int)
  | c :: cs =>
    if c.table.name = tbl.name ∧ c.table.family = tbl.family then
      match c.rulesResult with
      | none => -1
      | some rs =>
        countForeignRulesSpecGo tbl (t + (rs.filter (fun r => !r.daemonOwned)).length) cs
    else
      countForeignRulesSpecGo tbl t cs

/-- Modelled from the spec: countForeignRules "asks the Adapter to list all
rules under the table's (name, family) pair and counts those not
originating from this daemon's own rule records — returns -1 on enumeration
failure". Spec-side definition, for comparison with nonSystemRules. -/
def countForeignRulesSpec (n : Nft) (tbl : NftTable) : Int :=
  match n.conn.chainsResult with
  | none => -1
  | some chains => countForeignRulesSpecGo tbl 0 chains

/-- The total number of rules of the chains not skipped by nonSystemRules'
AND condition, reading failed rule listings as empty; equals nonSystemRules
whenever every non-skipped chain listed its rules successfully. -/
def matchingRuleCount (tbl : NftTable) : List NftChain → Nat
  | [] => 0
  | c :: cs =>
    if tbl.name ≠ c.table.name ∧ tbl.family ≠ c.table.family then
      matchingRuleCount tbl cs
    else
      (c.rulesResult.getD []).length + matchingRuleCount tbl cs

/-! Registry and connection lemmas. -/

theorem mem_connAddTable_self (conn : Conn) (tbl : NftTable) :
    tbl ∈ (connAddTable conn tbl).tables := by
  unfold connAddTable
  split
  · assumption
  · simp

theorem connAddTable_idem (conn : Conn) (tbl : NftTable) :
    connAddTable (connAddTable conn tbl) tbl = connAddTable conn tbl := by
  by_cases hc : tbl ∈ conn.tables
  · simp [connAddTable, hc]
  · simp [connAddTable, hc]

theorem filter_ne_idem (m : List (String × NftTable)) (k : String) :
    (m.filter (fun e => e.1 != k)).filter (fun e => e.1 != k) =
      m.filter (fun e => e.1 != k) := by
  induction m with
  | nil => rfl
  | cons e m ih =>
    by_cases h : e.1 = k
    · simp [List.filter_cons, h, ih]
    · simp [List.filter_cons, h, ih]

theorem sysTablesAdd_idem (m : List (String × NftTable)) (k : String) (t : NftTable) :
    sysTablesAdd (sysTablesAdd m k t) k t = sysTablesAdd m k t := by
  unfold sysTablesAdd
  rw [List.filter_cons]
  simp [filter_ne_idem]

theorem sysTablesGet_add_self (m : List (String × NftTable)) (k : String) (t : NftTable) :
    sysTablesGet (sysTablesAdd m k t) k = some t := by
  simp [sysTablesGet, sysTablesAdd, List.find?_cons_of_pos]

theorem find?_key_filter (m : List (String × NftTable)) (k k' : String) (h : k' ≠ k) :
    (m.filter (fun e => e.1 != k)).find? (fun e => e.1 == k') =
      m.find? (fun e => e.1 == k') := by
  induction m with
  | nil => rfl
  | cons e m ih =>
    by_cases he : e.1 = k
    · have hkk : (k == k') = false := by
        simp
        exact fun hc => h hc.symm
      simp [List.filter_cons, he, List.find?_cons, hkk, ih]
    · by_cases hp : e.1 = k'
      · simp [List.filter_cons, he, List.find?_cons, hp, h]
      · simp [List.filter_cons, he, List.find?_cons, hp, ih]

theorem sysTablesGet_add_ne (m : List (String × NftTable)) (k k' : String) (t : NftTable)
    (h : k' ≠ k) :
    sysTablesGet (sysTablesAdd m k t) k' = sysTablesGet m k' := by
  have hk : (k == k') = false := by
    simp
    exact fun hc => h hc.symm
  simp [sysTablesGet, sysTablesAdd, List.find?_cons, hk, find?_key_filter m k k' h]

theorem sysTablesGet_del_self (m : List (String × NftTable)) (k : String) :
    sysTablesGet (sysTablesDel m k) k = none := by
  have hfind : List.find? (fun e => e.1 == k) (m.filter (fun e => e.1 != k)) = none := by
    rw [List.find?_eq_none]
    intro x hx
    rw [List.mem_filter] at hx
    simpa using hx.2
  simp [sysTablesGet, sysTablesDel, hfind]

theorem sysTablesGet_del_ne (m : List (String × NftTable)) (k k' : String) (h : k' ≠ k) :
    sysTablesGet (sysTablesDel m k) k' = sysTablesGet m k' := by
  unfold sysTablesGet sysTablesDel
  rw [find?_key_filter m k k' h]

/-- C9: AddTable is atomic with respect to the registry: on commit failure
it returns a nil handle and a non-nil error and leaves the state (hence the
sysTables registry) unchanged; on commit success it returns the handle and
no error, and the handle is registered under the key of (name, family). -/
theorem AddTable_registry_atomic (n : Nft) (name family : String) :
    (AddTable n name family false).1 = none ∧
    (AddTable n name family false).2.1 = some ⟨name, family, getFamilyCode family⟩ ∧
    (AddTable n name family false).2.2 = n ∧
    (AddTable n name family true).1 = some ⟨getFamilyCode family, name⟩ ∧
    (AddTable n name family true).2.1 = none ∧
    sysTablesGet (AddTable n name family true).2.2.sysTables (getTableKey name family) =
      some ⟨getFamilyCode family, name⟩ := by
  refine ⟨rfl, rfl, rfl, rfl, rfl, ?_⟩
  exact sysTablesGet_add_self n.sysTables (getTableKey name family) _

/-- C10: getTableKey is not injective: the distinct pairs ("a-b", "c") and
("a", "b-c") share the key "a-b-c", so AddTable for the second pair
overwrites the registry entry of the first, and getTable for the first pair
returns the second pair's table. -/
theorem getTableKey_not_injective :
    getTableKey "a-b" "c" = getTableKey "a" "b-c" ∧
    ¬("a-b" = "a" ∧ "c" = "b-c") ∧
    getTable ((AddTable ((AddTable ⟨⟨some [], []⟩, [], []⟩ "a-b" "c" true).2.2)
        "a" "b-c" true).2.2) "a-b" "c" = some ⟨getFamilyCode "b-c", "a"⟩ ∧
    some (⟨getFamilyCode "b-c", "a"⟩ : NftTable) ≠
      some (⟨getFamilyCode "c", "a-b"⟩ : NftTable) := by
  refine ⟨rfl, by decide, by decide, by decide⟩

/-- C5: AddTable is idempotent: calling it twice with the same name and
family (and successful commits) errors neither time, returns the same
table handle both times, and the second call leaves the whole state — the
kernel table set and the registry — unchanged. -/
theorem AddTable_idempotent (n : Nft) (name family : String) :
    (AddTable n name family true).2.1 = none ∧
    (AddTable ((AddTable n name family true).2.2) name family true).2.1 = none ∧
    (AddTable ((AddTable n name family true).2.2) name family true).1 =
      (AddTable n name family true).1 ∧
    (AddTable ((AddTable n name family true).2.2) name family true).2.2 =
      (AddTable n name family true).2.2 := by
  refine ⟨rfl, rfl, rfl, ?_⟩
  have h1 := connAddTable_idem n.conn ⟨getFamilyCode family, name⟩
  have h2 := sysTablesAdd_idem n.sysTables (getTableKey name family)
    ⟨getFamilyCode family, name⟩
  simp only [AddTable, if_pos rfl]
  rw [Nft.mk.injEq]
  exact ⟨h1, h2, rfl⟩

/-! Lemmas on the enumeration loop of nonSystemRules. -/

theorem nonSystemRulesGo_err (tbl : NftTable) (c : NftChain)
    (hskip : ¬(tbl.name ≠ c.table.name ∧ tbl.family ≠ c.table.family))
    (herr : c.rulesResult = none) :
    ∀ (cs : List NftChain) (t : Nat), c ∈ cs → nonSystemRulesGo tbl t cs = -1 := by
  intro cs
  induction cs with
  | nil => intro t h; cases h
  | cons d cs ih =>
    intro t hmem
    rcases List.mem_cons.mp hmem with rfl | hmem
    · simp only [nonSystemRulesGo]
      rw [if_neg hskip, herr]
    · by_cases hd : tbl.name ≠ d.table.name ∧ tbl.family ≠ d.table.family
      · simp only [nonSystemRulesGo]
        rw [if_pos hd]
        exact ih t hmem
      · simp only [nonSystemRulesGo]
        rw [if_neg hd]
        cases hrd : d.rulesResult with
        | none => rfl
        | some rs => exact ih _ hmem

/-- C2: nonSystemRules returns -1 when enumeration fails: when listing the
chains fails, and when listing the rules of any chain matching the target
table (i.e. not skipped by the AND condition) fails; the failure is the
value -1 itself, not 0 or any other count. -/
theorem nonSystemRules_enumeration_failure (n : Nft) (tbl : NftTable) :
    (n.conn.chainsResult = none → nonSystemRules n tbl = -1) ∧
    (∀ (chains : List NftChain) (c : NftChain),
      n.conn.chainsResult = some chains → c ∈ chains →
      ¬(tbl.name ≠ c.table.name ∧ tbl.family ≠ c.table.family) →
      c.rulesResult = none → nonSystemRules n tbl = -1) := by
  constructor
  · intro h
    simp [nonSystemRules, h]
  · intro chains c hcs hmem hskip herr
    simp only [nonSystemRules, hcs]
    exact nonSystemRulesGo_err tbl c hskip herr chains 0 hmem

/-- Witness for C2: a handler whose sole chain matches the target table and
fails rule enumeration; nonSystemRules is -1. -/
theorem nonSystemRules_enumeration_failure_witness :
    (⟨⟨some [⟨⟨1, "filter"⟩, none⟩], []⟩, [], []⟩ : Nft).conn.chainsResult =
      some [⟨⟨1, "filter"⟩, none⟩] ∧
    (⟨⟨1, "filter"⟩, none⟩ : NftChain) ∈ [(⟨⟨1, "filter"⟩, none⟩ : NftChain)] ∧
    ¬((⟨1, "filter"⟩ : NftTable).name ≠ (⟨⟨1, "filter"⟩, none⟩ : NftChain).table.name ∧
      (⟨1, "filter"⟩ : NftTable).family ≠ (⟨⟨1, "filter"⟩, none⟩ : NftChain).table.family) ∧
    (⟨⟨1, "filter"⟩, none⟩ : NftChain).rulesResult = none ∧
    nonSystemRules ⟨⟨some [⟨⟨1, "filter"⟩, none⟩], []⟩, [], []⟩ ⟨1, "filter"⟩ = -1 := by
  refine ⟨rfl, by decide, by decide, rfl, ?_⟩
  exact (nonSystemRules_enumeration_failure
    ⟨⟨some [⟨⟨1, "filter"⟩, none⟩], []⟩, [], []⟩ ⟨1, "filter"⟩).2
    [⟨⟨1, "filter"⟩, none⟩] ⟨⟨1, "filter"⟩, none⟩ rfl (by decide) (by decide) rfl

/-- C4: in the loop of nonSystemRules a chain is skipped only when both its
table name and its table family differ from the target table's; a chain
sharing the name or the family (or both) is queried and its rules counted
toward the total. -/
theorem nonSystemRules_skip_condition_and (tbl : NftTable) (c : NftChain)
    (cs : List NftChain) (t : Nat) :
    ((tbl.name ≠ c.table.name ∧ tbl.family ≠ c.table.family) →
      nonSystemRulesGo tbl t (c :: cs) = nonSystemRulesGo tbl t cs) ∧
    ((tbl.name = c.table.name ∨ tbl.family = c.table.family) →
      ∀ rs, c.rulesResult = some rs →
        nonSystemRulesGo tbl t (c :: cs) = nonSystemRulesGo tbl (t + rs.length) cs) := by
  constructor
  · intro h
    simp only [nonSystemRulesGo]
    rw [if_pos h]
  · intro h rs hrs
    have hn : ¬(tbl.name ≠ c.table.name ∧ tbl.family ≠ c.table.family) := by
      rcases h with h | h
      · exact fun hc => hc.1 h
      · exact fun hc => hc.2 h
    simp only [nonSystemRulesGo]
    rw [if_neg hn, hrs]

/-- Witness for C4: a chain sharing only the name with the target table
(family 2 versus 1) is still counted: its one rule makes the total 1. -/
theorem nonSystemRules_skip_condition_and_witness :
    ((⟨1, "filter"⟩ : NftTable).name =
        (⟨⟨2, "filter"⟩, some [⟨false⟩]⟩ : NftChain).table.name ∨
      (⟨1, "filter"⟩ : NftTable).family =
        (⟨⟨2, "filter"⟩, some [⟨false⟩]⟩ : NftChain).table.family) ∧
    (⟨⟨2, "filter"⟩, some [⟨false⟩]⟩ : NftChain).rulesResult = some [⟨false⟩] ∧
    nonSystemRulesGo ⟨1, "filter"⟩ 0 [⟨⟨2, "filter"⟩, some [⟨false⟩]⟩] = 1 := by
  refine ⟨Or.inl rfl, rfl, ?_⟩
  have h := (nonSystemRules_skip_condition_and ⟨1, "filter"⟩
    ⟨⟨2, "filter"⟩, some [⟨false⟩]⟩ [] 0).2 (Or.inl rfl) [⟨false⟩] rfl
  simpa using h

/-- Counterexample for C3: a host state whose sole chain belongs exactly to
the target table and holds one rule originating from the daemon itself:
enumeration succeeds, the spec-side foreign count is 0, yet nonSystemRules
returns 1 — the code never excludes the daemon's own rules. -/
theorem nonSystemRules_counts_own_rules_cex :
    (⟨⟨some [⟨⟨1, "filter"⟩, some [⟨true⟩]⟩], [⟨1, "filter"⟩]⟩, [], []⟩ : Nft).conn.chainsResult
      ≠ none ∧
    countForeignRulesSpec
      ⟨⟨some [⟨⟨1, "filter"⟩, some [⟨true⟩]⟩], [⟨1, "filter"⟩]⟩, [], []⟩ ⟨1, "filter"⟩ = 0 ∧
    nonSystemRules
      ⟨⟨some [⟨⟨1, "filter"⟩, some [⟨true⟩]⟩], [⟨1, "filter"⟩]⟩, [], []⟩ ⟨1, "filter"⟩ = 1 := by
  refine ⟨by decide, by decide, by decide⟩

theorem nonSystemRulesGo_eq_matching (tbl : NftTable) :
    ∀ (cs : List NftChain) (t : Nat),
      (∀ c ∈ cs, ¬(tbl.name ≠ c.table.name ∧ tbl.family ≠ c.table.family) →
        c.rulesResult ≠ none) →
      nonSystemRulesGo tbl t cs = ((t + matchingRuleCount tbl cs : Nat) : Int) := by
  intro cs
  induction cs with
  | nil =>
    intro t h
    simp [nonSystemRulesGo, matchingRuleCount]
  | cons c cs ih =>
    intro t h
    by_cases hc : tbl.name ≠ c.table.name ∧ tbl.family ≠ c.table.family
    · simp only [nonSystemRulesGo, matchingRuleCount]
      rw [if_pos hc, if_pos hc]
      exact ih t (fun d hd hnd => h d (List.mem_cons_of_mem _ hd) hnd)
    · cases hrs : c.rulesResult with
      | none => exact absurd hrs (h c (List.mem_cons_self _ _) hc)
      | some rs =>
        have hrec := ih (t + rs.length) (fun d hd hnd => h d (List.mem_cons_of_mem _ hd) hnd)
        simp only [nonSystemRulesGo, matchingRuleCount, hrs, Option.getD_some]
        rw [if_neg hc, if_neg hc, hrec]
        push_cast
        omega

/-- C3 amended: on successful enumeration (chains listed, and rule listing
succeeding for every chain matching the AND condition), nonSystemRules
returns the total number of rules of the non-skipped chains — including any
rules the daemon itself added. -/
theorem nonSystemRules_total_matching_count (n : Nft) (tbl : NftTable)
    (chains : List NftChain)
    (hcs : n.conn.chainsResult = some chains)
    (hok : ∀ c ∈ chains, ¬(tbl.name ≠ c.table.name ∧ tbl.family ≠ c.table.family) →
      c.rulesResult ≠ none) :
    nonSystemRules n tbl = (matchingRuleCount tbl chains : Int) := by
  simp only [nonSystemRules, hcs]
  simpa using nonSystemRulesGo_eq_matching tbl chains 0 hok

/-- Witness for the amended C3: two chains, one matching the target table
with two rules (one of them the daemon's own) and one skipped; the total is
the matching chains' rule count, 2. -/
theorem nonSystemRules_total_matching_count_witness :
    (⟨⟨some [⟨⟨1, "filter"⟩, some [⟨true⟩, ⟨false⟩]⟩, ⟨⟨2, "nat"⟩, some [⟨false⟩]⟩], []⟩,
        [], []⟩ : Nft).conn.chainsResult =
      some [⟨⟨1, "filter"⟩, some [⟨true⟩, ⟨false⟩]⟩, ⟨⟨2, "nat"⟩, some [⟨false⟩]⟩] ∧
    (∀ c ∈ [(⟨⟨1, "filter"⟩, some [⟨true⟩, ⟨false⟩]⟩ : NftChain), ⟨⟨2, "nat"⟩, some [⟨false⟩]⟩],
      ¬((⟨1, "filter"⟩ : NftTable).name ≠ c.table.name ∧
        (⟨1, "filter"⟩ : NftTable).family ≠ c.table.family) →
      c.rulesResult ≠ none) ∧
    nonSystemRules
      ⟨⟨some [⟨⟨1, "filter"⟩, some [⟨true⟩, ⟨false⟩]⟩, ⟨⟨2, "nat"⟩, some [⟨false⟩]⟩], []⟩, [], []⟩
      ⟨1, "filter"⟩ =
      (matchingRuleCount ⟨1, "filter"⟩
        [⟨⟨1, "filter"⟩, some [⟨true⟩, ⟨false⟩]⟩, ⟨⟨2, "nat"⟩, some [⟨false⟩]⟩] : Int) ∧
    matchingRuleCount ⟨1, "filter"⟩
      [⟨⟨1, "filter"⟩, some [⟨true⟩, ⟨false⟩]⟩, ⟨⟨2, "nat"⟩, some [⟨false⟩]⟩] = 2 := by
  refine ⟨rfl, by decide, ?_, by decide⟩
  exact nonSystemRules_total_matching_count
    ⟨⟨some [⟨⟨1, "filter"⟩, some [⟨true⟩, ⟨false⟩]⟩, ⟨⟨2, "nat"⟩, some [⟨false⟩]⟩], []⟩, [], []⟩
    ⟨1, "filter"⟩
    [⟨⟨1, "filter"⟩, some [⟨true⟩, ⟨false⟩]⟩, ⟨⟨2, "nat"⟩, some [⟨false⟩]⟩]
    rfl (by decide)

/-! Lemmas on the teardown iteration. -/

theorem teardownLoop_append (commitOk : String → Bool) :
    ∀ (L1 L2 : List (String × NftTable)) (st : Nft),
      teardownLoop commitOk (L1 ++ L2) st =
        teardownLoop commitOk L2 (teardownLoop commitOk L1 st) := by
  intro L1
  induction L1 with
  | nil => intro L2 st; rfl
  | cons e L1 ih =>
    intro L2 st
    obtain ⟨k, tbl⟩ := e
    simp only [List.cons_append, teardownLoop]
    by_cases h : nonSystemRules st tbl ≠ 0
    · rw [if_pos h, if_pos h]
      exact ih L2 st
    · rw [if_neg h, if_neg h]
      by_cases hk : commitOk k = true
      · rw [if_pos hk, if_pos hk]
        exact ih L2 _
      · rw [if_neg hk, if_neg hk]
        exact ih L2 _

theorem teardownLoop_tables_subset (commitOk : String → Bool) :
    ∀ (L : List (String × NftTable)) (st : Nft) (t : NftTable),
      t ∈ (teardownLoop commitOk L st).conn.tables → t ∈ st.conn.tables := by
  intro L
  induction L with
  | nil => intro st t h; exact h
  | cons e L ih =>
    intro st t h
    obtain ⟨k, tbl⟩ := e
    simp only [teardownLoop] at h
    split at h
    · exact ih st t h
    · split at h
      · have hmem := ih ⟨delTableConn st.conn tbl, sysTablesDel st.sysTables k, st.logs⟩ t h
        simp only [delTableConn, List.mem_filter] at hmem
        exact hmem.1
      · exact ih ⟨st.conn, st.sysTables, st.logs ++ [warnDelMsg k]⟩ t h

theorem sysTablesGet_del_none (m : List (String × NftTable)) (k k' : String)
    (h : sysTablesGet m k = none) :
    sysTablesGet (sysTablesDel m k') k = none := by
  by_cases hk : k = k'
  · subst hk
    exact sysTablesGet_del_self m k
  · rw [sysTablesGet_del_ne m k' k hk]
    exact h

theorem teardownLoop_get_none (commitOk : String → Bool) :
    ∀ (L : List (String × NftTable)) (st : Nft) (k : String),
      sysTablesGet st.sysTables k = none →
      sysTablesGet (teardownLoop commitOk L st).sysTables k = none := by
  intro L
  induction L with
  | nil => intro st k h; exact h
  | cons e L ih =>
    intro st k h
    obtain ⟨k', tbl⟩ := e
    simp only [teardownLoop]
    split
    · exact ih st k h
    · split
      · exact ih _ k (sysTablesGet_del_none st.sysTables k k' h)
      · exact ih _ k h

theorem teardownLoop_get_preserved (commitOk : String → Bool) :
    ∀ (L : List (String × NftTable)) (st : Nft) (k : String),
      k ∉ L.map Prod.fst →
      sysTablesGet (teardownLoop commitOk L st).sysTables k =
        sysTablesGet st.sysTables k := by
  intro L
  induction L with
  | nil => intro st k h; rfl
  | cons e L ih =>
    intro st k h
    obtain ⟨k', tbl⟩ := e
    simp only [List.map_cons, List.mem_cons, not_or] at h
    obtain ⟨hk, hL⟩ := h
    simp only [teardownLoop]
    split
    · exact ih st k hL
    · split
      · rw [ih _ k hL]
        exact sysTablesGet_del_ne st.sysTables k' k hk
      · exact ih _ k hL

theorem teardownLoop_tables_preserved (commitOk : String → Bool) :
    ∀ (L : List (String × NftTable)) (st : Nft) (tbl : NftTable),
      (∀ e ∈ L, e.2 ≠ tbl) →
      tbl ∈ st.conn.tables →
      tbl ∈ (teardownLoop commitOk L st).conn.tables := by
  intro L
  induction L with
  | nil => intro st tbl h hm; exact hm
  | cons e L ih =>
    intro st tbl h hm
    obtain ⟨k', tbl'⟩ := e
    have hne : tbl' ≠ tbl := h (k', tbl') (List.mem_cons_self _ _)
    have hL : ∀ e ∈ L, e.2 ≠ tbl := fun e he => h e (List.mem_cons_of_mem _ he)
    simp only [teardownLoop]
    split
    · exact ih st tbl hL hm
    · split
      · apply ih _ tbl hL
        simp only [delTableConn, List.mem_filter]
        refine ⟨hm, ?_⟩
        simp [bne_iff_ne]
        exact fun hc => hne hc.symm
      · exact ih _ tbl hL hm

theorem teardownLoop_logs_mono (commitOk : String → Bool) :
    ∀ (L : List (String × NftTable)) (st : Nft) (x : String),
      x ∈ st.logs → x ∈ (teardownLoop commitOk L st).logs := by
  intro L
  induction L with
  | nil => intro st x h; exact h
  | cons e L ih =>
    intro st x h
    obtain ⟨k', tbl'⟩ := e
    simp only [teardownLoop]
    split
    · exact ih st x h
    · split
      · exact ih _ x h
      · exact ih _ x (by simp [h])

theorem sysTablesGet_append_cons :
    ∀ (L1 : List (String × NftTable)) (L2 : List (String × NftTable))
      (k : String) (tbl : NftTable), k ∉ L1.map Prod.fst →
      sysTablesGet (L1 ++ (k, tbl) :: L2) k = some tbl := by
  intro L1
  induction L1 with
  | nil =>
    intro L2 k tbl h
    simp [sysTablesGet, List.find?_cons]
  | cons e L1 ih =>
    intro L2 k tbl h
    simp only [List.map_cons, List.mem_cons, not_or] at h
    have he : (e.1 == k) = false := by
      simp
      exact fun hc => h.1 hc.symm
    simp only [List.cons_append, sysTablesGet, List.find?_cons, he]
    exact ih L2 k tbl h.2

/-- C1: teardown deletes a table only when its foreign-rule count, in the
state at the entry's visit, is exactly 0: a nonzero count (including -1)
makes the visit leave the state untouched — no delete is staged — while a
zero count with a successful delete+commit removes the table from the
kernel table set and the entry from the registry, in the visited state and
in the final state. -/
theorem teardown_deletes_only_when_zero (commitOk : String → Bool) (st : Nft)
    (L1 L2 : List (String × NftTable)) (k : String) (tbl : NftTable)
    (hreg : st.sysTables = L1 ++ (k, tbl) :: L2) :
    (nonSystemRules (teardownLoop commitOk L1 st) tbl ≠ 0 →
      delSystemTables commitOk st =
        teardownLoop commitOk L2 (teardownLoop commitOk L1 st)) ∧
    (nonSystemRules (teardownLoop commitOk L1 st) tbl = 0 → commitOk k = true →
      delSystemTables commitOk st =
        teardownLoop commitOk L2
          ⟨delTableConn (teardownLoop commitOk L1 st).conn tbl,
           sysTablesDel (teardownLoop commitOk L1 st).sysTables k,
           (teardownLoop commitOk L1 st).logs⟩ ∧
      tbl ∉ (delSystemTables commitOk st).conn.tables ∧
      sysTablesGet (delSystemTables commitOk st).sysTables k = none) := by
  have hrun : delSystemTables commitOk st =
      teardownLoop commitOk ((k, tbl) :: L2) (teardownLoop commitOk L1 st) := by
    rw [delSystemTables, hreg, teardownLoop_append]
  constructor
  · intro h
    rw [hrun]
    simp only [teardownLoop]
    rw [if_pos h]
  · intro h hk
    have hstep : delSystemTables commitOk st =
        teardownLoop commitOk L2
          ⟨delTableConn (teardownLoop commitOk L1 st).conn tbl,
           sysTablesDel (teardownLoop commitOk L1 st).sysTables k,
           (teardownLoop commitOk L1 st).logs⟩ := by
      rw [hrun]
      simp only [teardownLoop]
      rw [if_neg (fun hc => hc h), if_pos hk]
    refine ⟨hstep, ?_, ?_⟩
    · rw [hstep]
      intro hmem
      have hsub := teardownLoop_tables_subset commitOk L2 _ tbl hmem
      simp only [delTableConn, List.mem_filter] at hsub
      simp at hsub
    · rw [hstep]
      exact teardownLoop_get_none commitOk L2 _ k (sysTablesGet_del_self _ k)

/-- Witness for C1: a one-entry registry whose table has zero foreign rules
and whose commit succeeds: after teardown the table is gone from the kernel
set and the key from the registry. -/
theorem teardown_deletes_only_when_zero_witness :
    (⟨⟨some [], [⟨1, "x"⟩]⟩, [("x-inet", ⟨1, "x"⟩)], []⟩ : Nft).sysTables =
      [] ++ ("x-inet", ⟨1, "x"⟩) :: [] ∧
    nonSystemRules
      (teardownLoop (fun _ => true) [] ⟨⟨some [], [⟨1, "x"⟩]⟩, [("x-inet", ⟨1, "x"⟩)], []⟩)
      ⟨1, "x"⟩ = 0 ∧
    (fun (_ : String) => true) "x-inet" = true ∧
    (⟨1, "x"⟩ : NftTable) ∉
      (delSystemTables (fun _ => true)
        ⟨⟨some [], [⟨1, "x"⟩]⟩, [("x-inet", ⟨1, "x"⟩)], []⟩).conn.tables ∧
    sysTablesGet
      (delSystemTables (fun _ => true)
        ⟨⟨some [], [⟨1, "x"⟩]⟩, [("x-inet", ⟨1, "x"⟩)], []⟩).sysTables "x-inet" = none := by
  have h := (teardown_deletes_only_when_zero (fun _ => true)
    ⟨⟨some [], [⟨1, "x"⟩]⟩, [("x-inet", ⟨1, "x"⟩)], []⟩ [] [] "x-inet" ⟨1, "x"⟩ rfl).2
    (by decide) rfl
  exact ⟨rfl, by decide, rfl, h.2.1, h.2.2⟩

/-- C6: during teardown, for a table whose foreign-rule count at its visit
is 0, a failed commit of the staged delete logs the warning and retains the
registry entry: the visit changes nothing but the log, the warning is in
the final log, and when the key occurs nowhere else in the registry the
final registry still maps it to the same table. -/
theorem teardown_commit_failure_retains_entry (commitOk : String → Bool) (st : Nft)
    (L1 L2 : List (String × NftTable)) (k : String) (tbl : NftTable)
    (hreg : st.sysTables = L1 ++ (k, tbl) :: L2)
    (h0 : nonSystemRules (teardownLoop commitOk L1 st) tbl = 0)
    (hc : commitOk k = false) :
    delSystemTables commitOk st =
      teardownLoop commitOk L2
        ⟨(teardownLoop commitOk L1 st).conn,
         (teardownLoop commitOk L1 st).sysTables,
         (teardownLoop commitOk L1 st).logs ++ [warnDelMsg k]⟩ ∧
    warnDelMsg k ∈ (delSystemTables commitOk st).logs ∧
    (k ∉ L1.map Prod.fst → k ∉ L2.map Prod.fst →
      sysTablesGet (delSystemTables commitOk st).sysTables k = some tbl) := by
  have hrun : delSystemTables commitOk st =
      teardownLoop commitOk ((k, tbl) :: L2) (teardownLoop commitOk L1 st) := by
    rw [delSystemTables, hreg, teardownLoop_append]
  have hstep : delSystemTables commitOk st =
      teardownLoop commitOk L2
        ⟨(teardownLoop commitOk L1 st).conn,
         (teardownLoop commitOk L1 st).sysTables,
         (teardownLoop commitOk L1 st).logs ++ [warnDelMsg k]⟩ := by
    rw [hrun]
    simp only [teardownLoop]
    rw [if_neg (fun hcc => hcc h0), if_neg (by simp [hc])]
  refine ⟨hstep, ?_, ?_⟩
  · rw [hstep]
    apply teardownLoop_logs_mono
    simp
  · intro hk1 hk2
    rw [hstep]
    rw [teardownLoop_get_preserved commitOk L2 _ k hk2]
    rw [teardownLoop_get_preserved commitOk L1 st k hk1]
    rw [hreg]
    exact sysTablesGet_append_cons L1 L2 k tbl hk1

/-- Witness for C6: a single-entry registry, zero foreign rules, a failing
commit: the warning is logged and the entry survives. -/
theorem teardown_commit_failure_retains_entry_witness :
    (⟨⟨some [], [⟨1, "x"⟩]⟩, [("x-inet", ⟨1, "x"⟩)], []⟩ : Nft).sysTables =
      [] ++ ("x-inet", ⟨1, "x"⟩) :: [] ∧
    nonSystemRules
      (teardownLoop (fun _ => false) [] ⟨⟨some [], [⟨1, "x"⟩]⟩, [("x-inet", ⟨1, "x"⟩)], []⟩)
      ⟨1, "x"⟩ = 0 ∧
    (fun (_ : String) => false) "x-inet" = false ∧
    warnDelMsg "x-inet" ∈
      (delSystemTables (fun _ => false)
        ⟨⟨some [], [⟨1, "x"⟩]⟩, [("x-inet", ⟨1, "x"⟩)], []⟩).logs ∧
    sysTablesGet
      (delSystemTables (fun _ => false)
        ⟨⟨some [], [⟨1, "x"⟩]⟩, [("x-inet", ⟨1, "x"⟩)], []⟩).sysTables "x-inet" =
      some ⟨1, "x"⟩ := by
  have h := teardown_commit_failure_retains_entry (fun _ => false)
    ⟨⟨some [], [⟨1, "x"⟩]⟩, [("x-inet", ⟨1, "x"⟩)], []⟩ [] [] "x-inet" ⟨1, "x"⟩
    rfl (by decide) rfl
  exact ⟨rfl, by decide, rfl, h.2.1, h.2.2 (by simp) (by simp)⟩

/-- Counterexample for C7: a registered table with 3 foreign rules:
teardown leaves the whole state exactly as it was — in particular the log
stays empty, no warning is logged for the nonzero-count skip (the code logs
only on commit failure), contradicting the claim that a warning is logged. -/
theorem teardown_nonzero_no_warning_cex :
    nonSystemRules
      ⟨⟨some [⟨⟨1, "mangle"⟩, some [⟨false⟩, ⟨false⟩, ⟨false⟩]⟩], [⟨1, "mangle"⟩]⟩,
        [("mangle-inet", ⟨1, "mangle"⟩)], []⟩ ⟨1, "mangle"⟩ = 3 ∧
    delSystemTables (fun _ => true)
      ⟨⟨some [⟨⟨1, "mangle"⟩, some [⟨false⟩, ⟨false⟩, ⟨false⟩]⟩], [⟨1, "mangle"⟩]⟩,
        [("mangle-inet", ⟨1, "mangle"⟩)], []⟩ =
      ⟨⟨some [⟨⟨1, "mangle"⟩, some [⟨false⟩, ⟨false⟩, ⟨false⟩]⟩], [⟨1, "mangle"⟩]⟩,
        [("mangle-inet", ⟨1, "mangle"⟩)], []⟩ ∧
    (delSystemTables (fun _ => true)
      ⟨⟨some [⟨⟨1, "mangle"⟩, some [⟨false⟩, ⟨false⟩, ⟨false⟩]⟩], [⟨1, "mangle"⟩]⟩,
        [("mangle-inet", ⟨1, "mangle"⟩)], []⟩).logs = [] := by
  refine ⟨by decide, by decide, by decide⟩

/-- C7 amended: a registered table whose foreign-rule count is nonzero
(e.g. 3) is left intact by teardown together with its registry entry — no
warning is logged in this branch — and a later getTable for the same
(name, family) still returns the same entry. -/
theorem teardown_nonzero_preserves_entry (commitOk : String → Bool) (st : Nft)
    (name family : String) (tbl : NftTable) (rest : List (String × NftTable))
    (hreg : st.sysTables = (getTableKey name family, tbl) :: rest)
    (h3 : nonSystemRules st tbl ≠ 0)
    (hk : getTableKey name family ∉ rest.map Prod.fst)
    (ht : ∀ e ∈ rest, e.2 ≠ tbl) :
    getTable (delSystemTables commitOk st) name family = some tbl ∧
    (tbl ∈ st.conn.tables → tbl ∈ (delSystemTables commitOk st).conn.tables) := by
  have hrun : delSystemTables commitOk st = teardownLoop commitOk rest st := by
    rw [delSystemTables, hreg]
    simp only [teardownLoop]
    rw [if_pos h3]
  constructor
  · rw [getTable, hrun, teardownLoop_get_preserved commitOk rest st _ hk, hreg]
    simp [sysTablesGet, List.find?_cons]
  · intro hm
    rw [hrun]
    exact teardownLoop_tables_preserved commitOk rest st tbl ht hm

/-- Witness for the amended C7: count is 3, the table and its entry survive
teardown and getTable still finds the entry. -/
theorem teardown_nonzero_preserves_entry_witness :
    (⟨⟨some [⟨⟨1, "mangle"⟩, some [⟨false⟩, ⟨false⟩, ⟨false⟩]⟩], [⟨1, "mangle"⟩]⟩,
        [(getTableKey "mangle" "inet", ⟨1, "mangle"⟩)], []⟩ : Nft).sysTables =
      (getTableKey "mangle" "inet", ⟨1, "mangle"⟩) :: [] ∧
    nonSystemRules
      ⟨⟨some [⟨⟨1, "mangle"⟩, some [⟨false⟩, ⟨false⟩, ⟨false⟩]⟩], [⟨1, "mangle"⟩]⟩,
        [(getTableKey "mangle" "inet", ⟨1, "mangle"⟩)], []⟩ ⟨1, "mangle"⟩ ≠ 0 ∧
    getTable
      (delSystemTables (fun _ => true)
        ⟨⟨some [⟨⟨1, "mangle"⟩, some [⟨false⟩, ⟨false⟩, ⟨false⟩]⟩], [⟨1, "mangle"⟩]⟩,
          [(getTableKey "mangle" "inet", ⟨1, "mangle"⟩)], []⟩) "mangle" "inet" =
      some ⟨1, "mangle"⟩ ∧
    (⟨1, "mangle"⟩ : NftTable) ∈
      (delSystemTables (fun _ => true)
        ⟨⟨some [⟨⟨1, "mangle"⟩, some [⟨false⟩, ⟨false⟩, ⟨false⟩]⟩], [⟨1, "mangle"⟩]⟩,
          [(getTableKey "mangle" "inet", ⟨1, "mangle"⟩)], []⟩).conn.tables := by
  have h := teardown_nonzero_preserves_entry (fun _ => true)
    ⟨⟨some [⟨⟨1, "mangle"⟩, some [⟨false⟩, ⟨false⟩, ⟨false⟩]⟩], [⟨1, "mangle"⟩]⟩,
      [(getTableKey "mangle" "inet", ⟨1, "mangle"⟩)], []⟩
    "mangle" "inet" ⟨1, "mangle"⟩ [] rfl (by decide) (by simp) (by simp)
  exact ⟨rfl, by decide, h.1, h.2 (by decide)⟩

theorem connAddTable_mem_mono (conn : Conn) (tbl t : NftTable) (h : t ∈ conn.tables) :
    t ∈ (connAddTable conn tbl).tables := by
  unfold connAddTable
  split
  · exact h
  · simp [h]

/-- C8: addInterceptionTables creates the mangle and the filter table in
the inet family: with both commits succeeding it reports no error and both
tables are registered and present in the kernel set; a failure adding
either table is returned immediately — a mangle failure returns the mangle
error with the state untouched and the filter table never attempted, and a
filter failure returns the filter error. -/
theorem addInterceptionTables_mangle_filter_inet (n : Nft) (ok2 : Bool) :
    ((addInterceptionTables n true true).1 = none ∧
      getTable (addInterceptionTables n true true).2 NFT_CHAIN_MANGLE NFT_FAMILY_INET =
        some ⟨getFamilyCode NFT_FAMILY_INET, NFT_CHAIN_MANGLE⟩ ∧
      getTable (addInterceptionTables n true true).2 NFT_CHAIN_FILTER NFT_FAMILY_INET =
        some ⟨getFamilyCode NFT_FAMILY_INET, NFT_CHAIN_FILTER⟩ ∧
      (⟨getFamilyCode NFT_FAMILY_INET, NFT_CHAIN_MANGLE⟩ : NftTable) ∈
        (addInterceptionTables n true true).2.conn.tables ∧
      (⟨getFamilyCode NFT_FAMILY_INET, NFT_CHAIN_FILTER⟩ : NftTable) ∈
        (addInterceptionTables n true true).2.conn.tables) ∧
    addInterceptionTables n false ok2 =
      (some ⟨NFT_CHAIN_MANGLE, NFT_FAMILY_INET, getFamilyCode NFT_FAMILY_INET⟩, n) ∧
    addInterceptionTables n true false =
      (some ⟨NFT_CHAIN_FILTER, NFT_FAMILY_INET, getFamilyCode NFT_FAMILY_INET⟩,
       (AddTable n NFT_CHAIN_MANGLE NFT_FAMILY_INET true).2.2) := by
  refine ⟨⟨rfl, ?_, ?_, ?_, ?_⟩, rfl, rfl⟩
  · exact (sysTablesGet_add_ne
      (sysTablesAdd n.sysTables (getTableKey NFT_CHAIN_MANGLE NFT_FAMILY_INET)
        ⟨getFamilyCode NFT_FAMILY_INET, NFT_CHAIN_MANGLE⟩)
      (getTableKey NFT_CHAIN_FILTER NFT_FAMILY_INET)
      (getTableKey NFT_CHAIN_MANGLE NFT_FAMILY_INET)
      ⟨getFamilyCode NFT_FAMILY_INET, NFT_CHAIN_FILTER⟩
      (by decide)).trans
      (sysTablesGet_add_self n.sysTables (getTableKey NFT_CHAIN_MANGLE NFT_FAMILY_INET)
        ⟨getFamilyCode NFT_FAMILY_INET, NFT_CHAIN_MANGLE⟩)
  · exact sysTablesGet_add_self
      (sysTablesAdd n.sysTables (getTableKey NFT_CHAIN_MANGLE NFT_FAMILY_INET)
        ⟨getFamilyCode NFT_FAMILY_INET, NFT_CHAIN_MANGLE⟩)
      (getTableKey NFT_CHAIN_FILTER NFT_FAMILY_INET)
      ⟨getFamilyCode NFT_FAMILY_INET, NFT_CHAIN_FILTER⟩
  · exact connAddTable_mem_mono (connAddTable n.conn _) _ _
      (mem_connAddTable_self n.conn ⟨getFamilyCode NFT_FAMILY_INET, NFT_CHAIN_MANGLE⟩)
  · exact mem_connAddTable_self (connAddTable n.conn _) _
